import Mathlib

set_option maxHeartbeats 1000000

/-
Shallow embedding of the fcc crate (src/concat.rs, src/error.rs, src/util.rs).

Bytes are modelled as Nat (newline = 10, carriage return = 13); a file or a
byte stream is a List Nat.  The usize/u64 arithmetic that Rust checks in debug
builds is modelled explicitly: a subtraction that would underflow, or an
out-of-bounds index, yields the distinguished `panicked` outcome.
-/

/-- The error kinds of src/error.rs (the display-only nonexhaustive marker
variant is omitted; it is never constructed). -/
inductive ErrorKind
  | Io
  | NothingPassed
  | SeekNegative
  | ByteNotFound
  | InvalidSkip
deriving DecidableEq, Repr

/-- Source: concat.rs, constant DEFUALT_CHUNK_SIZE (sic). -/
def DEFUALT_CHUNK_SIZE : Nat := 1024 * 4

/-- Cursor state of a `ByteSeeker` (concat.rs).  The borrowed stream is
immutable, so it is passed separately as `data` to every operation; the stored
stream length `len` always equals `data.length` (it is computed once in `new`
and never written again), so it is not duplicated in the state.  `buflen` is
the current length of the internal buffer `buf`, which `seek`/`seek_back`
shrink in place with `set_len` and which `reset` restores to the chunk size.
`ipos` is the position of the underlying stream cursor (`self.inner`). -/
structure ByteSeeker where
  ipos : Nat
  buflen : Nat
  lpos : Nat
  rpos : Nat
  done : Bool
  oneleft : Bool
deriving DecidableEq, Repr

/-- Outcome of a seeker operation.  `err` carries the seeker state left behind
(the Rust methods mutate `self` before returning `Err`); `panicked` models a
checked-arithmetic failure (debug-build integer overflow panic); `diverge`
marks fuel exhaustion of the loop model (not reachable from the states
produced by the public entry points, which pass sufficient fuel). -/
inductive SeekResult
  | ok (pos : Nat) (s : ByteSeeker)
  | err (kind : ErrorKind) (s : ByteSeeker)
  | panicked
  | diverge
deriving DecidableEq, Repr

/-- Model of `read_exact` on an in-memory stream: reads `n` bytes at absolute
position `ipos`, failing with an I/O error (unexpected EOF) when fewer than
`n` bytes remain; on success the stream cursor advances to `ipos + n`. -/
def readExact (data : List Nat) (ipos n : Nat) : Except ErrorKind (List Nat × Nat) :=
  if ipos + n ≤ data.length then .ok ((data.drop ipos).take n, ipos + n)
  else .error .Io

/-- Model of `buf.iter().position(|&x| x == byte)`: index of the first
occurrence of `byte` in the list. -/
def position (byte : Nat) : List Nat → Option Nat
  | [] => none
  | x :: xs => if x = byte then some 0 else (position byte xs).map (· + 1)

/-- `ByteSeeker::new` (concat.rs 399-413): the length is derived by a
seek-to-end followed by a rewind, so the stream cursor starts at 0. -/
def ByteSeeker.new (data : List Nat) : ByteSeeker :=
  { ipos := 0
    buflen := DEFUALT_CHUNK_SIZE
    lpos := 0
    rpos := if data.length = 0 then 0 else data.length - 1
    done := false
    oneleft := false }

/-- `ByteSeeker::reset` (concat.rs 437-444): rewinds the stream, restores the
internal buffer to the default chunk size, and clears both cursors and both
flags.  The stored length is not re-derived; since it always equals
`data.length`, the reset state coincides with a freshly constructed one. -/
def ByteSeeker.reset (data : List Nat) (_s : ByteSeeker) : ByteSeeker :=
  { ipos := 0
    buflen := DEFUALT_CHUNK_SIZE
    lpos := 0
    rpos := if data.length = 0 then 0 else data.length - 1
    done := false
    oneleft := false }

/-- The chunked forward loop of `ByteSeeker::seek` (concat.rs 568-603), made
well-founded with fuel; `seek` passes fuel that suffices for every state
reachable through the public API (the loop advances `lpos` by at least one
byte per iteration whenever the buffer is non-empty). -/
def ByteSeeker.seekLoop (data : List Nat) (byte : Nat) : Nat → ByteSeeker → SeekResult
  | 0, _ => .diverge
  | fuel+1, s =>
    let len := data.length
    let remaining := len - s.lpos
    let buflen := if remaining < s.buflen then remaining else s.buflen
    let is_last_read : Bool := decide (remaining < s.buflen)
    match readExact data s.ipos buflen with
    | .error e => .err e { s with buflen := buflen, ipos := len }
    | .ok (chunk, ipos1) =>
      match position byte chunk with
      | some pos =>
        let cpos := s.lpos + pos
        .ok cpos { s with buflen := buflen, ipos := cpos + 1, lpos := cpos + 1,
                          oneleft := if cpos + 1 > len - 1 then true else s.oneleft }
      | none =>
        if is_last_read then
          .err .ByteNotFound { s with buflen := buflen, ipos := ipos1, done := true }
        else
          ByteSeeker.seekLoop data byte fuel
            { s with ipos := s.lpos + buflen, lpos := s.lpos + buflen }

/-- `ByteSeeker::seek` (concat.rs 552-604). -/
def ByteSeeker.seek (data : List Nat) (s : ByteSeeker) (byte : Nat) : SeekResult :=
  if s.done = true ∨ data.length = 0 then .err .ByteNotFound s
  else if data.length = 1 ∨ s.oneleft = true then
    match readExact data s.ipos 1 with
    | .error e => .err e { s with ipos := data.length }
    | .ok (buf, ipos1) =>
      let s1 := { s with ipos := ipos1, done := true }
      if buf.headD 0 = byte then .ok 0 s1 else .err .ByteNotFound s1
  else
    ByteSeeker.seekLoop data byte (data.length + 2) s

/-- The chunked backward loop of `ByteSeeker::seek_back` (concat.rs 652-697).
The code first repositions the stream cursor to the chunk start (updating
`rpos` to it), reads the chunk, and searches it from its end (`rev()`). -/
def ByteSeeker.seekBackLoop (data : List Nat) (byte : Nat) : Nat → ByteSeeker → SeekResult
  | 0, _ => .diverge
  | fuel+1, s =>
    let remaining := s.rpos + 1
    let buflen := if remaining < s.buflen then remaining else s.buflen
    let is_last_read : Bool := decide (remaining < s.buflen)
    let s0 := { s with buflen := buflen, rpos := remaining - buflen, ipos := remaining - buflen }
    match readExact data s0.ipos buflen with
    | .error e => .err e { s0 with ipos := data.length }
    | .ok (chunk, ipos1) =>
      let s1 := { s0 with ipos := ipos1 }
      match position byte chunk.reverse with
      | some pos =>
        let cpos := s1.rpos + (buflen - pos - 1)
        if cpos = 0 then .ok cpos { s1 with done := true }
        else
          let s2 := { s1 with rpos := cpos - 1, ipos := cpos - 1 }
          .ok cpos (if s2.rpos = 0 then { s2 with oneleft := true } else s2)
      | none =>
        if is_last_read then
          .err .ByteNotFound { s1 with rpos := 0, ipos := 0, done := true }
        else
          ByteSeeker.seekBackLoop data byte fuel s1

/-- `ByteSeeker::seek_back` (concat.rs 634-697).  The guard and the one-byte
fast path are shared verbatim with `seek`: both directions test the same
`done`/`oneleft` flags. -/
def ByteSeeker.seek_back (data : List Nat) (s : ByteSeeker) (byte : Nat) : SeekResult :=
  if s.done = true ∨ data.length = 0 then .err .ByteNotFound s
  else if data.length = 1 ∨ s.oneleft = true then
    match readExact data s.ipos 1 with
    | .error e => .err e { s with ipos := data.length }
    | .ok (buf, ipos1) =>
      let s1 := { s with ipos := ipos1, done := true }
      if buf.headD 0 = byte then .ok 0 s1 else .err .ByteNotFound s1
  else
    ByteSeeker.seekBackLoop data byte (data.length + 2) s

/-- Loop body of `ByteSeeker::seek_nth` (concat.rs 474-483): seek once, then
decrement the counter, then test it against zero.  With counter 0 the
decrement underflows the usize, which is a checked-arithmetic panic; it
happens after the first underlying `seek` has already returned `Ok`.  A
failing `seek` propagates before the decrement is reached. -/
def ByteSeeker.seekNthLoop (data : List Nat) (byte : Nat) : Nat → ByteSeeker → SeekResult
  | 0, s =>
    match ByteSeeker.seek data s byte with
    | .ok _ _ => .panicked
    | r => r
  | 1, s => ByteSeeker.seek data s byte
  | n+2, s =>
    match ByteSeeker.seek data s byte with
    | .ok _ s1 => ByteSeeker.seekNthLoop data byte (n+1) s1
    | r => r

/-- `ByteSeeker::seek_nth` (concat.rs 474-483). -/
def ByteSeeker.seek_nth (data : List Nat) (s : ByteSeeker) (byte nth : Nat) : SeekResult :=
  ByteSeeker.seekNthLoop data byte nth s

/-- Loop body of `ByteSeeker::seek_nth_back` (concat.rs 513-522); identical
counter handling to `seek_nth`. -/
def ByteSeeker.seekNthBackLoop (data : List Nat) (byte : Nat) : Nat → ByteSeeker → SeekResult
  | 0, s =>
    match ByteSeeker.seek_back data s byte with
    | .ok _ _ => .panicked
    | r => r
  | 1, s => ByteSeeker.seek_back data s byte
  | n+2, s =>
    match ByteSeeker.seek_back data s byte with
    | .ok _ s1 => ByteSeeker.seekNthBackLoop data byte (n+1) s1
    | r => r

/-- `ByteSeeker::seek_nth_back` (concat.rs 513-522). -/
def ByteSeeker.seek_nth_back (data : List Nat) (s : ByteSeeker) (byte nth : Nat) : SeekResult :=
  ByteSeeker.seekNthBackLoop data byte nth s

/-- A call against one seeker: a forward `seek` or a backward `seek_back`. -/
inductive Op
  | fwd (byte : Nat)
  | bwd (byte : Nat)
deriving DecidableEq, Repr

/-- Observable outcome of one call (offset returned, or error kind). -/
inductive OpResult
  | ok (pos : Nat)
  | err (kind : ErrorKind)
  | stuck
deriving DecidableEq, Repr

def doOp (data : List Nat) (s : ByteSeeker) : Op → SeekResult
  | .fwd b => ByteSeeker.seek data s b
  | .bwd b => ByteSeeker.seek_back data s b

/-- Runs a sequence of seeker calls, threading the mutated state through, and
records each call's observable outcome. -/
def runOps (data : List Nat) : ByteSeeker → List Op → List OpResult
  | _, [] => []
  | s, op :: rest =>
    match doOp data s op with
    | .ok p s1 => .ok p :: runOps data s1 rest
    | .err k s1 => .err k :: runOps data s1 rest
    | _ => [.stuck]

/-- Final seeker state after a sequence of calls. -/
def execOps (data : List Nat) : ByteSeeker → List Op → ByteSeeker
  | s, [] => s
  | s, op :: rest =>
    match doOp data s op with
    | .ok _ s1 => execOps data s1 rest
    | .err _ s1 => execOps data s1 rest
    | _ => s

/-- `ends_with_newline` (util.rs 72-84): true iff the file's last byte is
`\n`; an empty file yields false (the SeekNegative error of `get_last_byte`
is mapped to false). -/
def ends_with_newline (file : List Nat) : Bool :=
  file.getLast? = some 10

/-- The `ConcatOptions` struct (concat.rs 46-54); `Default` zeroes every
field. -/
structure ConcatOptions where
  skip_start : Nat := 0
  skip_end : Nat := 0
  header : Bool := false
  newline : Bool := false
  crlf : Bool := false
  padding : Option (List Nat) := none
deriving DecidableEq, Repr

/-- The `view` flag computed by `Concat::open` (concat.rs 95-105).  The
options are immutable after `open`, so computing it on the fly is
equivalent. -/
def view (opts : ConcatOptions) : Bool :=
  opts.newline || opts.header || !(opts.skip_start = 0 : Bool) || !(opts.skip_end = 0 : Bool)

/-- `reader.read_until(b'\n', ..)`: everything up to and including the first
newline, or the whole file when it has none. -/
def read_until_nl (file : List Nat) : List Nat :=
  match position 10 file with
  | some p => file.take (p + 1)
  | none => file

/-- `Concat::get_header` (concat.rs 247-258). -/
def get_header (files : List (List Nat)) : Except ErrorKind (List Nat) :=
  match files with
  | [] => .error .NothingPassed
  | f :: _ => .ok (read_until_nl f)

/-- Outcome of the write pipeline.  On success it carries the full byte
sequence written to the sink.  On error only the kind is kept (partial bytes
already flushed to the caller-owned sink are not modelled; the claims below
concern successful outputs and error kinds). -/
inductive WriteResult
  | ok (out : List Nat)
  | err (kind : ErrorKind)
  | panicked
  | diverge
deriving DecidableEq, Repr

/-- The newline bytes chosen by the `crlf` option. -/
def nlBytes (opts : ConcatOptions) : List Nat :=
  if opts.crlf then [13, 10] else [10]

/-- `Concat::write_contents` (concat.rs 315-362), yielding the bytes written
for one file.

When `view` is false the file is copied verbatim.  Otherwise, if a skip is
configured, both boundaries are computed with `self.opts.skip_end` (the code
never reads `skip_start` past the branch condition): `start` by `seek_nth`
and `end` by `seek_nth_back` on the same seeker, reset in between.  The
reader is then positioned at `end - 1` (a u64 subtraction: checked panic when
`end = 0`) to inspect a possible carriage return, but the `take` limit chosen
from that inspection is discarded by `into_inner`, so the copy always runs
from `start - 1` (checked panic when `start = 0`) to the end of the file.
Finally, when the `newline` option is set and the file does not end with a
newline, the terminator is appended. -/
def write_contents (opts : ConcatOptions) (file : List Nat) : WriteResult :=
  let ends_nl := ends_with_newline file
  if !(view opts) then .ok file
  else
    let contentPart : WriteResult :=
      if opts.skip_start > 0 || opts.skip_end > 0 then
        match ByteSeeker.seek_nth file (ByteSeeker.new file) 10 opts.skip_end with
        | .ok start s1 =>
          match ByteSeeker.seek_nth_back file (ByteSeeker.reset file s1) 10 opts.skip_end with
          | .ok endPos _s2 =>
            if endPos = 0 then .panicked
            else
              match readExact file (endPos - 1) 1 with
              | .error e => .err e
              | .ok (buf, _) =>
                let _takeLimit := if buf.headD 0 = 13 then endPos - 1 else endPos
                if start = 0 then .panicked
                else .ok (file.drop (start - 1))
          | .err k _ => .err k
          | .panicked => .panicked
          | .diverge => .diverge
        | .err k _ => .err k
        | .panicked => .panicked
        | .diverge => .diverge
      else .ok []
    match contentPart with
    | .ok content =>
      .ok (content ++ (if opts.newline && !ends_nl then nlBytes opts else []))
    | r => r

/-- The per-file loop of `Concat::write` (concat.rs 286-292): after each
file's contents, the padding — when configured — is written, for every file
including the last. -/
def writeLoop (opts : ConcatOptions) : List (List Nat) → WriteResult
  | [] => .ok []
  | f :: fs =>
    match write_contents opts f with
    | .ok out =>
      match writeLoop opts fs with
      | .ok rest => .ok (out ++ opts.padding.getD [] ++ rest)
      | r => r
    | r => r

/-- `Concat::write` (concat.rs 274-305).  After the header (when requested)
and the per-file loop, the last input file is reopened and a newline is
appended when that file does not end with one; indexing `paths[len - 1]` is a
checked-arithmetic panic when the path list is empty. -/
def fccWrite (opts : ConcatOptions) (files : List (List Nat)) : WriteResult :=
  match (if opts.header then get_header files else .ok ([] : List Nat)) with
  | .error k => .err k
  | .ok headerBytes =>
    match writeLoop opts files with
    | .ok body =>
      match files.getLast? with
      | none => .panicked
      | some lastFile =>
        .ok (headerBytes ++ body ++ (if ends_with_newline lastFile then [] else nlBytes opts))
    | r => r

/-! ### Specification functions (pure descriptions of occurrence positions) -/

/-- Number of occurrences of `byte` in a stream. -/
def countB (byte : Nat) : List Nat → Nat
  | [] => 0
  | x :: xs => (if x = byte then 1 else 0) + countB byte xs

/-- First index `p ≥ i` with `data.get? p = some byte`. -/
def firstOccFrom (data : List Nat) (byte i : Nat) : Option Nat :=
  (position byte (data.drop i)).map (i + ·)

/-- The `n`-th occurrence (1-based) of `byte` at an index `≥ i`. -/
def nthOccFrom (data : List Nat) (byte : Nat) : Nat → Nat → Option Nat
  | 0, _ => none
  | 1, i => firstOccFrom data byte i
  | n+2, i =>
    match firstOccFrom data byte i with
    | none => none
    | some p => nthOccFrom data byte (n+1) (p+1)

/-- The `n`-th occurrence (1-based) of `byte` in the stream. -/
def nthOcc (data : List Nat) (byte n : Nat) : Option Nat :=
  nthOccFrom data byte n 0

/-- The last occurrence of `byte` in the stream. -/
def lastOcc (data : List Nat) (byte : Nat) : Option Nat :=
  (position byte data.reverse).map (fun p => data.length - 1 - p)

/-- The last occurrence of `byte` at an index `≤ r`. -/
def lastOccUpto (data : List Nat) (byte r : Nat) : Option Nat :=
  (position byte (data.take (r + 1)).reverse).map (fun p => r - p)

/-- The offset of a successful seeker call, if any. -/
def SeekResult.posOpt : SeekResult → Option Nat
  | .ok p _ => some p
  | _ => none

/-- True exactly when the call returned an error (of any kind). -/
def SeekResult.isErrB : SeekResult → Bool
  | .err _ _ => true
  | _ => false

/-- True when the call failed with one of the two kinds a seeker can itself
produce: the byte was not found, or the underlying read hit EOF. -/
def isSeekFail : SeekResult → Bool
  | .err .ByteNotFound _ => true
  | .err .Io _ => true
  | _ => false

/-- Strict comparison of two optional offsets (false unless both present). -/
def optLtB : Option Nat → Option Nat → Bool
  | some a, some b => decide (a < b)
  | _, _ => false

/-- `seek_nth` on a freshly constructed seeker. -/
def freshSeekNth (data : List Nat) (byte n : Nat) : SeekResult :=
  ByteSeeker.seek_nth data (ByteSeeker.new data) byte n

/-- `seek_nth_back` on a freshly constructed seeker. -/
def freshSeekNthBack (data : List Nat) (byte n : Nat) : SeekResult :=
  ByteSeeker.seek_nth_back data (ByteSeeker.new data) byte n

/-! ### Basic facts about `position` and `countB` -/

theorem position_some_lt {byte : Nat} : ∀ {l : List Nat} {p : Nat},
    position byte l = some p → p < l.length := by
  intro l
  induction l with
  | nil => intro p h; simp [position] at h
  | cons x xs ih =>
    intro p h
    by_cases hx : x = byte
    · simp [position, hx] at h
      simp [← h]
    · simp [position, hx] at h
      obtain ⟨a, ha, hap⟩ := h
      have := ih ha
      simp only [List.length_cons]
      omega

theorem position_some_get {byte : Nat} : ∀ {l : List Nat} {p : Nat},
    position byte l = some p → l.get? p = some byte := by
  intro l
  induction l with
  | nil => intro p h; simp [position] at h
  | cons x xs ih =>
    intro p h
    by_cases hx : x = byte
    · simp [position, hx] at h
      simp [← h, List.get?, hx]
    · simp [position, hx] at h
      obtain ⟨a, ha, hap⟩ := h
      subst hap
      simpa [List.get?] using ih ha

theorem position_none_count {byte : Nat} : ∀ {l : List Nat},
    position byte l = none ↔ countB byte l = 0 := by
  intro l
  induction l with
  | nil => simp [position, countB]
  | cons x xs ih =>
    by_cases hx : x = byte
    · simp [position, countB, hx]
    · simp [position, countB, hx, ih]

theorem position_append_left {byte : Nat} : ∀ {l₁ : List Nat} {p : Nat} (l₂ : List Nat),
    position byte l₁ = some p → position byte (l₁ ++ l₂) = some p := by
  intro l₁
  induction l₁ with
  | nil => intro p l₂ h; simp [position] at h
  | cons x xs ih =>
    intro p l₂ h
    by_cases hx : x = byte
    · simp [position, hx] at h ⊢
      exact h
    · simp [position, hx] at h ⊢
      obtain ⟨a, ha, hap⟩ := h
      exact ⟨a, ih l₂ ha, hap⟩

theorem position_append_right {byte : Nat} : ∀ {l₁ : List Nat} (l₂ : List Nat),
    position byte l₁ = none →
    position byte (l₁ ++ l₂) = (position byte l₂).map (· + l₁.length) := by
  intro l₁
  induction l₁ with
  | nil => intro l₂ _; simp [position]
  | cons x xs ih =>
    intro l₂ h
    by_cases hx : x = byte
    · simp [position, hx] at h
    · simp [position, hx] at h ⊢
      rw [ih l₂ h]
      cases position byte l₂ with
      | none => simp
      | some q => simp; omega

theorem countB_append (byte : Nat) : ∀ (l₁ l₂ : List Nat),
    countB byte (l₁ ++ l₂) = countB byte l₁ + countB byte l₂ := by
  intro l₁ l₂
  induction l₁ with
  | nil => simp [countB]
  | cons x xs ih => simp [countB, ih]; omega

theorem countB_reverse (byte : Nat) : ∀ (l : List Nat),
    countB byte l.reverse = countB byte l := by
  intro l
  induction l with
  | nil => rfl
  | cons x xs ih => simp [countB, countB_append, ih]; omega

theorem position_count {byte : Nat} : ∀ {l : List Nat} {p : Nat},
    position byte l = some p → countB byte l = countB byte (l.drop (p+1)) + 1 := by
  intro l
  induction l with
  | nil => intro p h; simp [position] at h
  | cons x xs ih =>
    intro p h
    by_cases hx : x = byte
    · simp [position, hx] at h
      simp [← h, countB, hx]
      omega
    · simp [position, hx] at h
      obtain ⟨a, ha, hap⟩ := h
      subst hap
      simp [countB, hx, List.drop]
      exact ih ha

theorem countB_zero_get {byte : Nat} : ∀ {l : List Nat}, countB byte l = 0 →
    ∀ j, l.get? j ≠ some byte := by
  intro l
  induction l with
  | nil => intro _ j; simp [List.get?]
  | cons x xs ih =>
    intro h j
    simp [countB] at h
    obtain ⟨h1, h2⟩ : x ≠ byte ∧ countB byte xs = 0 := by
      constructor
      · intro hx; simp [hx] at h
      · by_cases hx : x = byte
        · simp [hx] at h
        · simp [hx] at h
          omega
    cases j with
    | zero => simp [List.get?]; exact fun hc => h1 hc
    | succ m => simpa [List.get?] using ih h2 m

/-! ### Facts about `firstOccFrom` and `nthOccFrom` -/

theorem firstOccFrom_facts {data : List Nat} {byte i p : Nat}
    (h : firstOccFrom data byte i = some p) :
    i ≤ p ∧ p < data.length ∧ data.get? p = some byte := by
  simp [firstOccFrom] at h
  obtain ⟨a, ha, hap⟩ := h
  have h1 := position_some_lt ha
  have h2 := position_some_get ha
  rw [List.get?_drop] at h2
  rw [List.length_drop] at h1
  subst hap
  exact ⟨Nat.le_add_right _ _, by omega, h2⟩

theorem firstOccFrom_none_iff {data : List Nat} {byte i : Nat} :
    firstOccFrom data byte i = none ↔ countB byte (data.drop i) = 0 := by
  simp [firstOccFrom]
  exact position_none_count

theorem firstOccFrom_count {data : List Nat} {byte i p : Nat}
    (h : firstOccFrom data byte i = some p) :
    countB byte (data.drop i) = countB byte (data.drop (p+1)) + 1 := by
  simp [firstOccFrom] at h
  obtain ⟨a, ha, hap⟩ := h
  have := position_count ha
  rw [List.drop_drop] at this
  rw [show i + (a + 1) = (i + a) + 1 by omega, hap] at this
  exact this

theorem nthOccFrom_count {data : List Nat} {byte : Nat} : ∀ (n i p : Nat),
    nthOccFrom data byte n i = some p →
    countB byte (data.drop i) = n + countB byte (data.drop (p+1)) := by
  intro n
  induction n using Nat.strong_induction_on with
  | _ n ih =>
    intro i p h
    match n with
    | 0 => simp [nthOccFrom] at h
    | 1 =>
      simp only [nthOccFrom] at h
      have := firstOccFrom_count h
      omega
    | m+2 =>
      simp only [nthOccFrom] at h
      cases hf : firstOccFrom data byte i with
      | none => rw [hf] at h; simp at h
      | some q =>
        rw [hf] at h
        have h1 := firstOccFrom_count hf
        have h2 := ih (m+1) (by omega) (q+1) p h
        omega

theorem nthOccFrom_get {data : List Nat} {byte : Nat} : ∀ (n i p : Nat),
    nthOccFrom data byte n i = some p →
    i ≤ p ∧ p < data.length ∧ data.get? p = some byte := by
  intro n
  induction n using Nat.strong_induction_on with
  | _ n ih =>
    intro i p h
    match n with
    | 0 => simp [nthOccFrom] at h
    | 1 =>
      simp only [nthOccFrom] at h
      exact firstOccFrom_facts h
    | m+2 =>
      simp only [nthOccFrom] at h
      cases hf : firstOccFrom data byte i with
      | none => rw [hf] at h; simp at h
      | some q =>
        rw [hf] at h
        have h1 := firstOccFrom_facts hf
        have h2 := ih (m+1) (by omega) (q+1) p h
        exact ⟨by omega, h2.2.1, h2.2.2⟩

theorem nthOccFrom_isSome {data : List Nat} {byte : Nat} : ∀ (n i : Nat),
    1 ≤ n → n ≤ countB byte (data.drop i) →
    (nthOccFrom data byte n i).isSome = true := by
  intro n
  induction n using Nat.strong_induction_on with
  | _ n ih =>
    intro i hn hc
    match n with
    | 0 => omega
    | 1 =>
      simp only [nthOccFrom]
      cases hf : firstOccFrom data byte i with
      | none =>
        rw [firstOccFrom_none_iff] at hf
        omega
      | some q => simp
    | m+2 =>
      simp only [nthOccFrom]
      cases hf : firstOccFrom data byte i with
      | none =>
        rw [firstOccFrom_none_iff] at hf
        omega
      | some q =>
        have h1 := firstOccFrom_count hf
        exact ih (m+1) (by omega) (q+1) (by omega) (by omega)

theorem nthOccFrom_none_of_gt {data : List Nat} {byte n i : Nat}
    (h : countB byte (data.drop i) < n) :
    nthOccFrom data byte n i = none := by
  cases hv : nthOccFrom data byte n i with
  | none => rfl
  | some p =>
    have := nthOccFrom_count n i p hv
    omega

theorem nthOccFrom_lt_succ {data : List Nat} {byte : Nat} : ∀ (n i p q : Nat),
    nthOccFrom data byte n i = some p →
    nthOccFrom data byte (n+1) i = some q → p < q := by
  intro n
  induction n using Nat.strong_induction_on with
  | _ n ih =>
    intro i p q h1 h2
    match n with
    | 0 => simp [nthOccFrom] at h1
    | 1 =>
      simp only [nthOccFrom] at h1 h2
      rw [h1] at h2
      simp only [nthOccFrom] at h2
      have := firstOccFrom_facts h2
      omega
    | m+2 =>
      simp only [nthOccFrom] at h1 h2
      cases hf : firstOccFrom data byte i with
      | none => rw [hf] at h1; simp at h1
      | some r =>
        rw [hf] at h1 h2
        exact ih (m+1) (by omega) (r+1) p q h1 h2

theorem nthOccFrom_strict {data : List Nat} {byte : Nat} : ∀ (m n i p q : Nat),
    1 ≤ n → nthOccFrom data byte n i = some p →
    nthOccFrom data byte (n + m + 1) i = some q → p < q := by
  intro m
  induction m with
  | zero =>
    intro n i p q _ h1 h2
    exact nthOccFrom_lt_succ n i p q h1 h2
  | succ m ihm =>
    intro n i p q hn h1 h2
    have hc := nthOccFrom_count (n + m + 2) i q h2
    have hmid : (nthOccFrom data byte (n + m + 1) i).isSome = true :=
      nthOccFrom_isSome (n + m + 1) i (by omega) (by omega)
    cases hv : nthOccFrom data byte (n + m + 1) i with
    | none => rw [hv] at hmid; simp at hmid
    | some t =>
      have hpt : p < t := ihm n i p t hn h1 hv
      have htq : t < q := nthOccFrom_lt_succ (n + m + 1) i t q hv h2
      omega

theorem position_take_some {byte : Nat} {l : List Nat} {b p : Nat}
    (h : position byte (l.take b) = some p) : position byte l = some p := by
  have := position_append_left (l.drop b) h
  rwa [List.take_append_drop] at this

theorem position_take_none {byte : Nat} {l : List Nat} {b : Nat}
    (h : position byte (l.take b) = none) :
    position byte l = (position byte (l.drop b)).map (· + (l.take b).length) := by
  have := position_append_right (l.drop b) h
  rwa [List.take_append_drop] at this

theorem firstOccFrom_shift {data : List Nat} {byte i b : Nat}
    (h : position byte ((data.drop i).take b) = none) (hb : b ≤ data.length - i) :
    firstOccFrom data byte i = firstOccFrom data byte (i + b) := by
  rw [firstOccFrom, position_take_none h, List.length_take, List.length_drop,
    Nat.min_eq_left hb, List.drop_drop, firstOccFrom]
  cases position byte (data.drop (i + b)) with
  | none => simp
  | some x => simp; omega

/-! ### Correctness of the forward walk from a clean cursor state -/

/-- A cursor state in the middle of a forward-only walk: the stream cursor and
the forward cursor agree, the buffer is non-empty, and neither flag is set. -/
def GoodF (s : ByteSeeker) (i : Nat) : Prop :=
  s.ipos = i ∧ s.lpos = i ∧ 1 ≤ s.buflen ∧ s.oneleft = false ∧ s.done = false

theorem seekLoop_spec (data : List Nat) (byte : Nat) : ∀ (fuel : Nat) (s : ByteSeeker) (i : Nat),
    s.ipos = i → s.lpos = i → 1 ≤ s.buflen → s.oneleft = false → s.done = false →
    i ≤ data.length → data.length - i < fuel →
    (match firstOccFrom data byte i with
     | some p =>
       ∃ b', 1 ≤ b' ∧
         ByteSeeker.seekLoop data byte fuel s =
           .ok p { s with buflen := b', ipos := p+1, lpos := p+1,
                          oneleft := if data.length - 1 < p + 1 then true else false }
     | none =>
       ∃ s', ByteSeeker.seekLoop data byte fuel s = .err .ByteNotFound s' ∧ s'.done = true) := by
  intro fuel
  induction fuel with
  | zero => intro s i _ _ _ _ _ _ hfuel; omega
  | succ fuel ih =>
    intro s i hips hlps hbuf honel hdone hle hfuel
    rcases Nat.lt_or_ge (data.length - i) s.buflen with hlast | hlast
    · -- final chunk: the read reaches the end of the stream
      have hchunk : (data.drop i).take (data.length - i) = data.drop i :=
        List.take_of_length_le (by simp)
      have hre : readExact data i (data.length - i) = .ok (data.drop i, data.length) := by
        rw [readExact, if_pos (by omega), hchunk, Nat.add_sub_cancel' hle]
      cases hpos : position byte (data.drop i) with
      | some pos =>
        have hfo : firstOccFrom data byte i = some (i + pos) := by
          simp [firstOccFrom, hpos]
        rw [hfo]
        refine ⟨data.length - i, by have := position_some_lt hpos; simp at this; omega, ?_⟩
        simp only [ByteSeeker.seekLoop, hips, hlps, if_pos hlast, hre, hpos, honel]
      | none =>
        have hfo : firstOccFrom data byte i = none := by
          simp [firstOccFrom, hpos]
        rw [hfo]
        refine ⟨{ s with buflen := data.length - i, ipos := data.length, done := true }, ?_, rfl⟩
        simp only [ByteSeeker.seekLoop, hips, hlps, if_pos hlast, hre, hpos, honel,
          decide_eq_true_eq]
    · -- interior chunk of length `s.buflen`
      have hre : readExact data i s.buflen = .ok ((data.drop i).take s.buflen, i + s.buflen) := by
        rw [readExact, if_pos (by omega)]
      have hnotlast : ¬ (data.length - i < s.buflen) := by omega
      cases hpos : position byte ((data.drop i).take s.buflen) with
      | some pos =>
        have hfo : firstOccFrom data byte i = some (i + pos) := by
          simp [firstOccFrom, position_take_some hpos]
        rw [hfo]
        refine ⟨s.buflen, hbuf, ?_⟩
        simp only [ByteSeeker.seekLoop, hips, hlps, if_neg hnotlast, hre, hpos, honel]
      | none =>
        have hfo : firstOccFrom data byte i = firstOccFrom data byte (i + s.buflen) :=
          firstOccFrom_shift hpos hlast
        rw [hfo]
        have hrec := ih { s with ipos := i + s.buflen, lpos := i + s.buflen } (i + s.buflen)
          rfl rfl hbuf honel hdone (by omega) (by omega)
        have hstep : ByteSeeker.seekLoop data byte (fuel + 1) s =
            ByteSeeker.seekLoop data byte fuel { s with ipos := i + s.buflen, lpos := i + s.buflen } := by
          simp only [ByteSeeker.seekLoop, hips, hlps, if_neg hnotlast, hre, hpos,
            decide_eq_true_eq]
        rw [hstep]
        exact hrec

theorem seek_done {data : List Nat} {byte : Nat} {s : ByteSeeker}
    (h : s.done = true ∨ data.length = 0) :
    ByteSeeker.seek data s byte = .err .ByteNotFound s := by
  rw [ByteSeeker.seek, if_pos h]

theorem seek_back_done {data : List Nat} {byte : Nat} {s : ByteSeeker}
    (h : s.done = true ∨ data.length = 0) :
    ByteSeeker.seek_back data s byte = .err .ByteNotFound s := by
  rw [ByteSeeker.seek_back, if_pos h]

theorem seek_edge {data : List Nat} {byte : Nat} {s : ByteSeeker}
    (hdone : s.done = false) (honel : s.oneleft = true) (hips : s.ipos = data.length)
    (hlen : 1 ≤ data.length) :
    ByteSeeker.seek data s byte = .err .Io { s with ipos := data.length } := by
  have h1 : ¬ (s.done = true ∨ data.length = 0) := by
    rintro (h | h)
    · rw [hdone] at h; exact Bool.false_ne_true h
    · omega
  rw [ByteSeeker.seek, if_neg h1, if_pos (Or.inr honel)]
  have hr : readExact data s.ipos 1 = .error .Io := by
    rw [hips, readExact, if_neg (by omega)]
  rw [hr]

theorem seek_goodF {data : List Nat} {byte : Nat} {s : ByteSeeker} {i : Nat}
    (hlen : 2 ≤ data.length)
    (hips : s.ipos = i) (hlps : s.lpos = i) (hbuf : 1 ≤ s.buflen)
    (honel : s.oneleft = false) (hdone : s.done = false) (hle : i ≤ data.length) :
    (match firstOccFrom data byte i with
     | some p =>
       ∃ b', 1 ≤ b' ∧
         ByteSeeker.seek data s byte =
           .ok p { s with buflen := b', ipos := p+1, lpos := p+1,
                          oneleft := if data.length - 1 < p + 1 then true else false }
     | none =>
       ∃ s', ByteSeeker.seek data s byte = .err .ByteNotFound s' ∧ s'.done = true) := by
  have h1 : ¬ (s.done = true ∨ data.length = 0) := by
    rintro (h | h)
    · rw [hdone] at h; exact Bool.false_ne_true h
    · omega
  have h2 : ¬ (data.length = 1 ∨ s.oneleft = true) := by
    rintro (h | h)
    · omega
    · rw [honel] at h; exact Bool.false_ne_true h
  have hs : ByteSeeker.seek data s byte = ByteSeeker.seekLoop data byte (data.length + 2) s := by
    rw [ByteSeeker.seek, if_neg h1, if_neg h2]
  simp only [hs]
  exact seekLoop_spec data byte (data.length + 2) s i hips hlps hbuf honel hdone hle (by omega)

theorem seekNthLoop_done {data : List Nat} {byte : Nat} {s : ByteSeeker}
    (h : s.done = true ∨ data.length = 0) :
    ∀ n, ByteSeeker.seekNthLoop data byte n s = .err .ByteNotFound s := by
  intro n
  have hs := @seek_done data byte s h
  match n with
  | 0 => simp [ByteSeeker.seekNthLoop, hs]
  | 1 => simp [ByteSeeker.seekNthLoop, hs]
  | n+2 => simp [ByteSeeker.seekNthLoop, hs]

theorem seekNthLoop_edge {data : List Nat} {byte : Nat} {s : ByteSeeker}
    (hdone : s.done = false) (honel : s.oneleft = true) (hips : s.ipos = data.length)
    (hlen : 1 ≤ data.length) :
    ∀ n, ByteSeeker.seekNthLoop data byte n s = .err .Io { s with ipos := data.length } := by
  intro n
  have hs := @seek_edge data byte s hdone honel hips hlen
  match n with
  | 0 => simp [ByteSeeker.seekNthLoop, hs]
  | 1 => simp [ByteSeeker.seekNthLoop, hs]
  | n+2 => simp [ByteSeeker.seekNthLoop, hs]

theorem seekNthLoop_goodF {data : List Nat} {byte : Nat} (hlen : 2 ≤ data.length) :
    ∀ (n : Nat) (s : ByteSeeker) (i : Nat), 1 ≤ n →
    s.ipos = i → s.lpos = i → 1 ≤ s.buflen → s.oneleft = false → s.done = false →
    i ≤ data.length →
    (match nthOccFrom data byte n i with
     | some p => (ByteSeeker.seekNthLoop data byte n s).posOpt = some p
     | none => isSeekFail (ByteSeeker.seekNthLoop data byte n s) = true) := by
  intro n
  induction n using Nat.strong_induction_on with
  | _ n ih =>
    intro s i hn hips hlps hbuf honel hdone hile
    match n with
    | 0 => omega
    | 1 =>
      have hsp := @seek_goodF data byte s i hlen hips hlps hbuf honel hdone hile
      cases hfo : firstOccFrom data byte i with
      | some p =>
        rw [hfo] at hsp
        obtain ⟨b', hb', heq⟩ := hsp
        have : nthOccFrom data byte 1 i = some p := by simp [nthOccFrom, hfo]
        rw [this]
        simp [ByteSeeker.seekNthLoop, heq, SeekResult.posOpt]
      | none =>
        rw [hfo] at hsp
        obtain ⟨s', heq, _⟩ := hsp
        have : nthOccFrom data byte 1 i = none := by simp [nthOccFrom, hfo]
        rw [this]
        simp [ByteSeeker.seekNthLoop, heq, isSeekFail]
    | m+2 =>
      have hsp := @seek_goodF data byte s i hlen hips hlps hbuf honel hdone hile
      cases hfo : firstOccFrom data byte i with
      | none =>
        rw [hfo] at hsp
        obtain ⟨s', heq, _⟩ := hsp
        have hnth : nthOccFrom data byte (m+2) i = none := by simp [nthOccFrom, hfo]
        rw [hnth]
        simp [ByteSeeker.seekNthLoop, heq, isSeekFail]
      | some p =>
        rw [hfo] at hsp
        obtain ⟨b', hb', heq⟩ := hsp
        have hplen : p < data.length := (firstOccFrom_facts hfo).2.1
        have hnth : nthOccFrom data byte (m+2) i = nthOccFrom data byte (m+1) (p+1) := by
          simp [nthOccFrom, hfo]
        rw [hnth]
        have hstep : ByteSeeker.seekNthLoop data byte (m+2) s =
            ByteSeeker.seekNthLoop data byte (m+1)
              { s with buflen := b', ipos := p+1, lpos := p+1,
                       oneleft := if data.length - 1 < p + 1 then true else false } := by
          simp [ByteSeeker.seekNthLoop, heq]
        rw [hstep]
        by_cases hedge : data.length - 1 < p + 1
        · have hpl : p + 1 = data.length := by omega
          have hfo2 : firstOccFrom data byte (p+1) = none := by
            rw [firstOccFrom_none_iff, hpl, List.drop_length]; rfl
          have hnone : nthOccFrom data byte (m+1) (p+1) = none := by
            match m with
            | 0 => simp [nthOccFrom, hfo2]
            | m+1 => simp [nthOccFrom, hfo2]
          rw [hnone]
          have hend := @seekNthLoop_edge data byte
            { s with buflen := b', ipos := p+1, lpos := p+1,
                     oneleft := if data.length - 1 < p + 1 then true else false }
            hdone (by simp [hedge]) (by simp [hpl]) (by omega) (m+1)
          rw [hend]
          rfl
        · have hrec := ih (m+1) (by omega)
            { s with buflen := b', ipos := p+1, lpos := p+1,
                     oneleft := if data.length - 1 < p + 1 then true else false }
            (p+1) (by omega) rfl rfl hb' (by simp [hedge]) hdone (by omega)
          exact hrec

theorem nthOccFrom_none_of_first {data : List Nat} {byte i n : Nat} (hn : 1 ≤ n)
    (h : firstOccFrom data byte i = none) : nthOccFrom data byte n i = none := by
  match n with
  | 1 => simp [nthOccFrom, h]
  | m+2 => simp [nthOccFrom, h]

/-- Full correctness of `seek_nth` on a fresh seeker: it returns exactly the
`n`-th occurrence of the byte when one exists, and otherwise fails with one of
the seeker's own error kinds. -/
theorem seek_nth_fresh (data : List Nat) (byte n : Nat) (hn : 1 ≤ n) :
    (match nthOcc data byte n with
     | some p => (freshSeekNth data byte n).posOpt = some p
     | none => isSeekFail (freshSeekNth data byte n) = true) := by
  rcases hlen : data.length with _ | len1
  · -- empty stream: every seek fails immediately
    have hsk := @seekNthLoop_done data byte (ByteSeeker.new data) (Or.inr hlen) n
    have hfo : firstOccFrom data byte 0 = none := by
      rw [firstOccFrom_none_iff]
      have hd : data = [] := List.length_eq_zero.mp hlen
      simp [hd, countB]
    rw [nthOcc, nthOccFrom_none_of_first hn hfo]
    simp [freshSeekNth, ByteSeeker.seek_nth, hsk, isSeekFail]
  rcases len1 with _ | len2
  · -- one-byte stream: resolved by the single-byte read-and-compare path
    obtain ⟨a, hdata⟩ : ∃ a, data = [a] := by
      cases data with
      | nil => simp at hlen
      | cons a l =>
        cases l with
        | nil => exact ⟨a, rfl⟩
        | cons b l2 => simp at hlen
    subst hdata
    have hseek : ByteSeeker.seek [a] (ByteSeeker.new [a]) byte =
        if a = byte
        then .ok 0 { ByteSeeker.new [a] with ipos := 1, done := true }
        else .err .ByteNotFound { ByteSeeker.new [a] with ipos := 1, done := true } := by
      rw [ByteSeeker.seek, if_neg (by simp [ByteSeeker.new]),
        if_pos (Or.inl (by simp : [a].length = 1))]
      have hre : readExact [a] (ByteSeeker.new [a]).ipos 1 = .ok ([a], 1) := by
        rw [show (ByteSeeker.new [a]).ipos = 0 from rfl, readExact, if_pos (by simp)]
        rfl
      rw [hre]
      rfl
    by_cases hd : a = byte
    · have hfo : firstOccFrom [a] byte 0 = some 0 := by
        simp [firstOccFrom, position, hd]
      rw [if_pos hd] at hseek
      match n with
      | 1 =>
        have hnth : nthOcc [a] byte 1 = some 0 := by simp [nthOcc, nthOccFrom, hfo]
        rw [hnth]
        simp [freshSeekNth, ByteSeeker.seek_nth, ByteSeeker.seekNthLoop, hseek,
          SeekResult.posOpt]
      | m+2 =>
        have hfo2 : firstOccFrom [a] byte 1 = none := by
          rw [firstOccFrom_none_iff]
          simp [countB]
        have hnth : nthOcc [a] byte (m+2) = none := by
          rw [nthOcc]
          have : nthOccFrom [a] byte (m+2) 0 = nthOccFrom [a] byte (m+1) 1 := by
            simp [nthOccFrom, hfo]
          rw [this]
          exact nthOccFrom_none_of_first (by omega) hfo2
        rw [hnth]
        have hdone2 := @seekNthLoop_done [a] byte
          { ByteSeeker.new [a] with ipos := 1, done := true } (Or.inl rfl) (m+1)
        have hstep : ByteSeeker.seekNthLoop [a] byte (m+2) (ByteSeeker.new [a]) =
            ByteSeeker.seekNthLoop [a] byte (m+1)
              { ByteSeeker.new [a] with ipos := 1, done := true } := by
          simp [ByteSeeker.seekNthLoop, hseek]
        simp [freshSeekNth, ByteSeeker.seek_nth, hstep, hdone2, isSeekFail]
    · have hfo : firstOccFrom [a] byte 0 = none := by
        rw [firstOccFrom_none_iff]
        simp [countB, hd]
      rw [if_neg hd] at hseek
      rw [nthOcc, nthOccFrom_none_of_first hn hfo]
      match n with
      | 1 =>
        simp [freshSeekNth, ByteSeeker.seek_nth, ByteSeeker.seekNthLoop, hseek, isSeekFail]
      | m+2 =>
        simp [freshSeekNth, ByteSeeker.seek_nth, ByteSeeker.seekNthLoop, hseek, isSeekFail]
  · -- at least two bytes: the chunked walk is exercised
    have hlen2 : 2 ≤ data.length := by omega
    have := @seekNthLoop_goodF data byte hlen2 n (ByteSeeker.new data) 0 hn
      rfl rfl (by simp [ByteSeeker.new, DEFUALT_CHUNK_SIZE]) rfl rfl (by omega)
    exact this


/-! ### Correctness of a backward seek from a clean cursor state -/

theorem exists_eq_ok {x : SeekResult} {p : Nat} (h : x.posOpt = some p) :
    ∃ s', x = .ok p s' := by
  cases x with
  | ok q s =>
    simp [SeekResult.posOpt] at h
    exact ⟨s, by rw [h]⟩
  | err k s => simp [SeekResult.posOpt] at h
  | panicked => simp [SeekResult.posOpt] at h
  | diverge => simp [SeekResult.posOpt] at h

theorem lastOccUpto_shift {data : List Nat} {byte r b : Nat}
    (hb2 : 2 ≤ b) (hble : b ≤ r + 1) (hrle : r + 1 ≤ data.length)
    (hnone : position byte ((data.drop (r + 1 - b)).take b).reverse = none) :
    lastOccUpto data byte r = lastOccUpto data byte (r + 1 - b) := by
  set c := r + 1 - b with hc
  have hcb : c + b = r + 1 := by omega
  have htake : data.take (r+1) = data.take c ++ (data.drop c).take b := by
    rw [← hcb]; exact List.take_add data c b
  have hchunklen : ((data.drop c).take b).length = b := by
    rw [List.length_take, List.length_drop]
    omega
  have hcount : countB byte ((data.drop c).take b) = 0 := by
    rw [← countB_reverse]
    exact position_none_count.mp hnone
  -- the byte at index c is inside the chunk, hence not an occurrence
  have hclen : c < data.length := by omega
  cases hget : data.get? c with
  | none =>
    exfalso
    rw [List.get?_eq_none] at hget
    omega
  | some dc =>
    have hdc : dc ≠ byte := by
      intro hEq
      have h0 : ((data.drop c).take b).get? 0 = data.get? c := by
        rw [List.get?_take (by omega), List.get?_drop, Nat.add_zero]
      have hz := countB_zero_get hcount 0
      rw [h0, hget, hEq] at hz
      exact hz rfl
    have hget' : data[c]? = some dc := by
      rw [← List.get?_eq_getElem?]
      exact hget
    have htake1 : data.take (c+1) = data.take c ++ [dc] := by
      rw [List.take_succ, hget']
      rfl
    have hrev1 : (data.take (c+1)).reverse = dc :: (data.take c).reverse := by
      rw [htake1, List.reverse_append]
      rfl
    have hrevr : (data.take (r+1)).reverse
        = ((data.drop c).take b).reverse ++ (data.take c).reverse := by
      rw [htake, List.reverse_append]
    have hqlen : ∀ q, position byte (data.take c).reverse = some q → q < c := by
      intro q hq
      have := position_some_lt hq
      rw [List.length_reverse, List.length_take] at this
      omega
    rw [lastOccUpto, lastOccUpto, hrevr, hrev1,
      position_append_right _ hnone, List.length_reverse, hchunklen]
    rw [show position byte (dc :: (data.take c).reverse)
        = (position byte (data.take c).reverse).map (· + 1) by
      simp [position, hdc]]
    cases hq : position byte (data.take c).reverse with
    | none => simp
    | some q =>
      have := hqlen q hq
      simp
      omega

theorem seekBackLoop_spec (data : List Nat) (byte : Nat) :
    ∀ (fuel : Nat) (s : ByteSeeker) (r : Nat),
    s.rpos = r → 2 ≤ s.buflen → r + 1 ≤ data.length → r < fuel →
    (match lastOccUpto data byte r with
     | some p => ∃ s', ByteSeeker.seekBackLoop data byte fuel s = .ok p s'
     | none => ∃ s', ByteSeeker.seekBackLoop data byte fuel s = .err .ByteNotFound s'
         ∧ s'.done = true) := by
  intro fuel
  induction fuel with
  | zero => intro s r _ _ _ hfuel; omega
  | succ fuel ih =>
    intro s r hrps hbuf hrle hfuel
    rcases Nat.lt_or_ge (r + 1) s.buflen with hlast | hlast
    · -- final chunk: covers positions 0 .. r
      have hre : readExact data 0 (r+1) = .ok (data.take (r+1), r+1) := by
        rw [readExact, if_pos (by omega)]
        simp
      cases hpos : position byte (data.take (r+1)).reverse with
      | some pos =>
        have hposlt : pos < r + 1 := by
          have := position_some_lt hpos
          rw [List.length_reverse, List.length_take] at this
          omega
        have hlo : lastOccUpto data byte r = some (r - pos) := by
          rw [lastOccUpto, hpos]
          rfl
        rw [hlo]
        apply exists_eq_ok
        have hsub : r + 1 - (r + 1) = 0 := by omega
        simp only [ByteSeeker.seekBackLoop, hrps, if_pos hlast, hsub, hre, hpos,
          decide_eq_true_eq]
        by_cases h0 : 0 + (r + 1 - pos - 1) = 0
        · rw [if_pos h0]
          simp [SeekResult.posOpt]
          omega
        · rw [if_neg h0]
          simp [SeekResult.posOpt]
          omega
      | none =>
        have hlo : lastOccUpto data byte r = none := by
          rw [lastOccUpto, hpos]
          rfl
        rw [hlo]
        have hsub : r + 1 - (r + 1) = 0 := by omega
        simp only [ByteSeeker.seekBackLoop, hrps, if_pos hlast, hsub, hre, hpos,
          decide_eq_true_eq]
        exact ⟨_, rfl, rfl⟩
    · -- interior chunk of length `s.buflen` ending at position r
      have hcb : (r + 1 - s.buflen) + s.buflen = r + 1 := by omega
      have hre : readExact data (r + 1 - s.buflen) s.buflen =
          .ok ((data.drop (r + 1 - s.buflen)).take s.buflen, r + 1) := by
        rw [readExact, if_pos (by omega)]
        rw [hcb]
      have hchunklen : ((data.drop (r + 1 - s.buflen)).take s.buflen).length = s.buflen := by
        rw [List.length_take, List.length_drop]
        omega
      have hnotlast : ¬ (r + 1 < s.buflen) := by omega
      cases hpos : position byte ((data.drop (r + 1 - s.buflen)).take s.buflen).reverse with
      | some pos =>
        have hposlt : pos < s.buflen := by
          have := position_some_lt hpos
          rw [List.length_reverse, hchunklen] at this
          exact this
        have htake : data.take (r+1) = data.take (r + 1 - s.buflen)
            ++ (data.drop (r + 1 - s.buflen)).take s.buflen := by
          have ht := List.take_add data (r + 1 - s.buflen) s.buflen
          rwa [hcb] at ht
        have hpos' : position byte (data.take (r+1)).reverse = some pos := by
          rw [htake, List.reverse_append]
          exact position_append_left _ hpos
        have hlo : lastOccUpto data byte r = some (r - pos) := by
          rw [lastOccUpto, hpos']
          rfl
        rw [hlo]
        apply exists_eq_ok
        simp only [ByteSeeker.seekBackLoop, hrps, if_neg hnotlast, hre, hpos,
          decide_eq_true_eq]
        by_cases h0 : (r + 1 - s.buflen) + (s.buflen - pos - 1) = 0
        · rw [if_pos h0]
          simp [SeekResult.posOpt]
          omega
        · rw [if_neg h0]
          simp [SeekResult.posOpt]
          omega
      | none =>
        have hshift : lastOccUpto data byte r = lastOccUpto data byte (r + 1 - s.buflen) :=
          lastOccUpto_shift hbuf (by omega) hrle hpos
        rw [hshift]
        have hrec := ih { s with buflen := s.buflen, rpos := r + 1 - s.buflen, ipos := r + 1 }
          (r + 1 - s.buflen) rfl hbuf (by omega) (by omega)
        have hstep : ByteSeeker.seekBackLoop data byte (fuel + 1) s =
            ByteSeeker.seekBackLoop data byte fuel
              { s with buflen := s.buflen, rpos := r + 1 - s.buflen, ipos := r + 1 } := by
          simp only [ByteSeeker.seekBackLoop, hrps, if_neg hnotlast, hre, hpos,
            decide_eq_true_eq]
        rw [hstep]
        exact hrec

/-- A single `seek_back` on a fresh seeker finds exactly the last occurrence
of the byte (and fails when there is none). -/
theorem seek_back_fresh (data : List Nat) (byte : Nat) :
    (ByteSeeker.seek_back data (ByteSeeker.new data) byte).posOpt = lastOcc data byte := by
  rcases hlen : data.length with _ | len1
  · have hd : data = [] := List.length_eq_zero.mp hlen
    subst hd
    rfl
  rcases len1 with _ | len2
  · obtain ⟨a, hdata⟩ : ∃ a, data = [a] := by
      cases data with
      | nil => simp at hlen
      | cons a l =>
        cases l with
        | nil => exact ⟨a, rfl⟩
        | cons b l2 => simp at hlen
    subst hdata
    rw [ByteSeeker.seek_back, if_neg (by simp [ByteSeeker.new]),
      if_pos (Or.inl (by simp : [a].length = 1))]
    have hre : readExact [a] (ByteSeeker.new [a]).ipos 1 = .ok ([a], 1) := by
      rw [show (ByteSeeker.new [a]).ipos = 0 from rfl, readExact, if_pos (by simp)]
      rfl
    rw [hre]
    by_cases hd : a = byte
    · have hlo : lastOcc [a] byte = some 0 := by
        simp [lastOcc, position, hd]
      rw [hlo]
      simp [SeekResult.posOpt, hd]
    · have hlo : lastOcc [a] byte = none := by
        simp [lastOcc, position, hd]
      rw [hlo]
      simp [SeekResult.posOpt, hd]
  · have hlen2 : 2 ≤ data.length := by omega
    have hg1 : ¬ ((ByteSeeker.new data).done = true ∨ data.length = 0) := by
      rintro (h | h)
      · exact Bool.false_ne_true h
      · omega
    have hg2 : ¬ (data.length = 1 ∨ (ByteSeeker.new data).oneleft = true) := by
      rintro (h | h)
      · omega
      · exact Bool.false_ne_true h
    have hsb : ByteSeeker.seek_back data (ByteSeeker.new data) byte =
        ByteSeeker.seekBackLoop data byte (data.length + 2) (ByteSeeker.new data) := by
      rw [ByteSeeker.seek_back, if_neg hg1, if_neg hg2]
    have hrpos : (ByteSeeker.new data).rpos = data.length - 1 := by
      show (if data.length = 0 then 0 else data.length - 1) = data.length - 1
      rw [if_neg (by omega)]
    have hspec := seekBackLoop_spec data byte (data.length + 2) (ByteSeeker.new data)
      (data.length - 1) hrpos (by simp [ByteSeeker.new, DEFUALT_CHUNK_SIZE]) (by omega)
      (by omega)
    have hlo : lastOccUpto data byte (data.length - 1) = lastOcc data byte := by
      rw [lastOccUpto, lastOcc, show data.length - 1 + 1 = data.length by omega,
        List.take_length]
    rw [hlo] at hspec
    cases hv : lastOcc data byte with
    | some p =>
      rw [hv] at hspec
      obtain ⟨s', heq⟩ := hspec
      rw [hsb, heq]
      rfl
    | none =>
      rw [hv] at hspec
      obtain ⟨s', heq, _⟩ := hspec
      rw [hsb, heq]
      rfl

/-- When the stream holds exactly `k ≥ 1` occurrences, the `k`-th occurrence
from the head is the last occurrence. -/
theorem lastOcc_eq_nthOcc {data : List Nat} {byte k : Nat}
    (hk : countB byte data = k) (hk1 : 1 ≤ k) :
    lastOcc data byte = nthOcc data byte k := by
  have hc0 : countB byte (data.drop 0) = k := by rw [List.drop_zero]; exact hk
  have hsome : (nthOccFrom data byte k 0).isSome = true :=
    nthOccFrom_isSome k 0 hk1 (by omega)
  cases hv : nthOccFrom data byte k 0 with
  | none => rw [hv] at hsome; simp at hsome
  | some p =>
    have hcount := nthOccFrom_count k 0 p hv
    have hafter : countB byte (data.drop (p+1)) = 0 := by omega
    have hget : data.get? p = some byte := (nthOccFrom_get k 0 p hv).2.2
    have hp : p < data.length := (nthOccFrom_get k 0 p hv).2.1
    rw [nthOcc, hv]
    -- the last occurrence is `p`: nothing after it matches
    have hsplit : data.reverse = (data.drop (p+1)).reverse ++ (data.take (p+1)).reverse := by
      conv_lhs => rw [← List.take_append_drop (p+1) data]
      rw [List.reverse_append]
    have hnone : position byte (data.drop (p+1)).reverse = none := by
      rw [position_none_count, countB_reverse]
      exact hafter
    have hget' : data[p]? = some byte := by
      rw [← List.get?_eq_getElem?]
      exact hget
    have htake1 : data.take (p+1) = data.take p ++ [byte] := by
      rw [List.take_succ, hget']
      rfl
    have hrev1 : (data.take (p+1)).reverse = byte :: (data.take p).reverse := by
      rw [htake1, List.reverse_append]
      rfl
    have hposr : position byte (data.take (p+1)).reverse = some 0 := by
      rw [hrev1]
      simp [position]
    rw [lastOcc, hsplit, position_append_right _ hnone, hposr]
    simp
    omega

/-! ### Error-kind bookkeeping for the seeker -/

theorem readExact_error {data : List Nat} {i n : Nat} {e : ErrorKind}
    (h : readExact data i n = .error e) : e = ErrorKind.Io := by
  rw [readExact] at h
  by_cases hc : i + n ≤ data.length
  · rw [if_pos hc] at h
    cases h
  · rw [if_neg hc] at h
    cases h
    rfl

theorem isSeekFail_inv {x : SeekResult} (h : isSeekFail x = true) :
    ∃ k s', x = .err k s' ∧ (k = ErrorKind.ByteNotFound ∨ k = ErrorKind.Io) := by
  cases x with
  | ok p s => simp [isSeekFail] at h
  | panicked => simp [isSeekFail] at h
  | diverge => simp [isSeekFail] at h
  | err k s =>
    cases k with
    | ByteNotFound => exact ⟨_, s, rfl, Or.inl rfl⟩
    | Io => exact ⟨_, s, rfl, Or.inr rfl⟩
    | NothingPassed => simp [isSeekFail] at h
    | SeekNegative => simp [isSeekFail] at h
    | InvalidSkip => simp [isSeekFail] at h

theorem seekLoop_err_bnf_state {data : List Nat} {byte : Nat} : ∀ (fuel : Nat) {s s' : ByteSeeker},
    ByteSeeker.seekLoop data byte fuel s = .err .ByteNotFound s' → s'.done = true := by
  intro fuel
  induction fuel with
  | zero => intro s s' h; simp [ByteSeeker.seekLoop] at h
  | succ fuel ih =>
    intro s s' h
    rw [ByteSeeker.seekLoop] at h
    cases hre : readExact data s.ipos
        (if data.length - s.lpos < s.buflen then data.length - s.lpos else s.buflen) with
    | error e =>
      rw [hre] at h
      have he := readExact_error hre
      subst he
      cases h
    | ok pr =>
      obtain ⟨chunk, ipos1⟩ := pr
      rw [hre] at h
      dsimp only at h
      cases hpos : position byte chunk with
      | some pos =>
        rw [hpos] at h
        cases h
      | none =>
        rw [hpos] at h
        simp only [decide_eq_true_eq] at h
        by_cases hlast : data.length - s.lpos < s.buflen
        · rw [if_pos hlast] at h
          cases h
          rfl
        · rw [if_neg hlast] at h
          exact ih h

theorem seekBackLoop_err_bnf_state {data : List Nat} {byte : Nat} :
    ∀ (fuel : Nat) {s s' : ByteSeeker},
    ByteSeeker.seekBackLoop data byte fuel s = .err .ByteNotFound s' → s'.done = true := by
  intro fuel
  induction fuel with
  | zero => intro s s' h; simp [ByteSeeker.seekBackLoop] at h
  | succ fuel ih =>
    intro s s' h
    rw [ByteSeeker.seekBackLoop] at h
    cases hre : readExact data (s.rpos + 1 - (if s.rpos + 1 < s.buflen then s.rpos + 1 else s.buflen))
        (if s.rpos + 1 < s.buflen then s.rpos + 1 else s.buflen) with
    | error e =>
      rw [hre] at h
      have he := readExact_error hre
      subst he
      cases h
    | ok pr =>
      obtain ⟨chunk, ipos1⟩ := pr
      rw [hre] at h
      dsimp only at h
      cases hpos : position byte chunk.reverse with
      | some pos =>
        rw [hpos] at h
        dsimp only at h
        have hp := congrArg SeekResult.posOpt h
        rw [apply_ite SeekResult.posOpt] at hp
        simp [SeekResult.posOpt] at hp
      | none =>
        rw [hpos] at h
        simp only [decide_eq_true_eq] at h
        by_cases hlast : s.rpos + 1 < s.buflen
        · rw [if_pos hlast] at h
          cases h
          rfl
        · rw [if_neg hlast] at h
          exact ih h

theorem seek_err_bnf_state {data : List Nat} {byte : Nat} {s s' : ByteSeeker}
    (h : ByteSeeker.seek data s byte = .err .ByteNotFound s') :
    s'.done = true ∨ data.length = 0 := by
  rw [ByteSeeker.seek] at h
  by_cases c1 : s.done = true ∨ data.length = 0
  · rw [if_pos c1] at h
    cases h
    rcases c1 with hc | hc
    · exact Or.inl hc
    · exact Or.inr hc
  · rw [if_neg c1] at h
    by_cases c2 : data.length = 1 ∨ s.oneleft = true
    · rw [if_pos c2] at h
      cases hre : readExact data s.ipos 1 with
      | error e =>
        rw [hre] at h
        have he := readExact_error hre
        subst he
        cases h
      | ok pr =>
        obtain ⟨buf, ipos1⟩ := pr
        rw [hre] at h
        dsimp only at h
        by_cases hb : buf.headD 0 = byte
        · rw [if_pos hb] at h
          cases h
        · rw [if_neg hb] at h
          cases h
          exact Or.inl rfl
    · rw [if_neg c2] at h
      exact Or.inl (seekLoop_err_bnf_state _ h)

theorem seek_back_err_bnf_state {data : List Nat} {byte : Nat} {s s' : ByteSeeker}
    (h : ByteSeeker.seek_back data s byte = .err .ByteNotFound s') :
    s'.done = true ∨ data.length = 0 := by
  rw [ByteSeeker.seek_back] at h
  by_cases c1 : s.done = true ∨ data.length = 0
  · rw [if_pos c1] at h
    cases h
    rcases c1 with hc | hc
    · exact Or.inl hc
    · exact Or.inr hc
  · rw [if_neg c1] at h
    by_cases c2 : data.length = 1 ∨ s.oneleft = true
    · rw [if_pos c2] at h
      cases hre : readExact data s.ipos 1 with
      | error e =>
        rw [hre] at h
        have he := readExact_error hre
        subst he
        cases h
      | ok pr =>
        obtain ⟨buf, ipos1⟩ := pr
        rw [hre] at h
        dsimp only at h
        by_cases hb : buf.headD 0 = byte
        · rw [if_pos hb] at h
          cases h
        · rw [if_neg hb] at h
          cases h
          exact Or.inl rfl
    · rw [if_neg c2] at h
      exact Or.inl (seekBackLoop_err_bnf_state _ h)

/-! ### Behaviour of the write pipeline -/

theorem write_contents_not_view {opts : ConcatOptions} (hv : view opts = false)
    (f : List Nat) : write_contents opts f = .ok f := by
  rw [write_contents]
  simp [hv]

theorem writeLoop_not_view {opts : ConcatOptions} (hv : view opts = false) :
    ∀ files : List (List Nat),
    writeLoop opts files = .ok ((files.map (fun f => f ++ opts.padding.getD [])).flatten) := by
  intro files
  induction files with
  | nil => rfl
  | cons f fs ih =>
    simp [writeLoop, write_contents_not_view hv, ih, List.append_assoc]

theorem fccWrite_not_view {opts : ConcatOptions} (hv : view opts = false)
    (hh : opts.header = false) (files : List (List Nat)) (lastFile : List Nat)
    (hlast : files.getLast? = some lastFile) :
    fccWrite opts files = .ok ((files.map (fun f => f ++ opts.padding.getD [])).flatten
      ++ (if ends_with_newline lastFile then [] else nlBytes opts)) := by
  rw [fccWrite]
  simp [hh, writeLoop_not_view hv, hlast]

theorem seek_nth_zero_of_ok {data : List Nat} {s : ByteSeeker} {byte p : Nat} {s' : ByteSeeker}
    (h : ByteSeeker.seek data s byte = .ok p s') :
    ByteSeeker.seek_nth data s byte 0 = .panicked := by
  simp [ByteSeeker.seek_nth, ByteSeeker.seekNthLoop, h]

theorem seek_nth_back_zero_of_ok {data : List Nat} {s : ByteSeeker} {byte p : Nat}
    {s' : ByteSeeker} (h : ByteSeeker.seek_back data s byte = .ok p s') :
    ByteSeeker.seek_nth_back data s byte 0 = .panicked := by
  simp [ByteSeeker.seek_nth_back, ByteSeeker.seekNthBackLoop, h]

theorem seek_fresh_ok {f : List Nat} {byte : Nat} (h : 1 ≤ countB byte f) :
    ∃ p s', ByteSeeker.seek f (ByteSeeker.new f) byte = .ok p s' := by
  have hm := seek_nth_fresh f byte 1 (by omega)
  have hc : countB byte (f.drop 0) = countB byte f := by rw [List.drop_zero]
  have hsome : (nthOcc f byte 1).isSome = true := by
    rw [nthOcc]
    exact nthOccFrom_isSome 1 0 (by omega) (by omega)
  cases hv : nthOcc f byte 1 with
  | none => rw [hv] at hsome; simp at hsome
  | some p =>
    rw [hv] at hm
    have : (freshSeekNth f byte 1).posOpt = some p := hm
    have hfr : freshSeekNth f byte 1 = ByteSeeker.seek f (ByteSeeker.new f) byte := rfl
    rw [hfr] at this
    obtain ⟨s', hs'⟩ := exists_eq_ok this
    exact ⟨p, s', hs'⟩

theorem view_skip_start {opts : ConcatOptions} (h : 1 ≤ opts.skip_start) :
    view opts = true := by
  have : (opts.skip_start = 0 : Bool) = false := by
    simp
    omega
  simp [view, this]

theorem view_skip_end {opts : ConcatOptions} (h : 1 ≤ opts.skip_end) :
    view opts = true := by
  have : (opts.skip_end = 0 : Bool) = false := by
    simp
    omega
  simp [view, this]

theorem write_contents_skip_end_fail {f : List Nat} {n : Nat} (hn : 1 ≤ n)
    (hc : countB 10 f < n) :
    ∃ k, write_contents { skip_end := n } f = .err k
      ∧ (k = ErrorKind.ByteNotFound ∨ k = ErrorKind.Io) := by
  have hnone : nthOcc f 10 n = none := by
    rw [nthOcc]
    exact nthOccFrom_none_of_gt (by rw [List.drop_zero]; omega)
  have hm := seek_nth_fresh f 10 n hn
  rw [hnone] at hm
  obtain ⟨k, s', heq, hk⟩ := isSeekFail_inv hm
  refine ⟨k, ?_, hk⟩
  have hview : view ({ skip_end := n } : ConcatOptions) = true :=
    view_skip_end (by simpa using hn)
  have heq' : ByteSeeker.seek_nth f (ByteSeeker.new f) 10 n = .err k s' := heq
  rw [write_contents]
  simp [hview, heq', hn, Nat.lt_of_lt_of_le Nat.zero_lt_one hn]

theorem fccWrite_skip_end_fail (f : List Nat) (n : Nat) (hn : 1 ≤ n)
    (hc : countB 10 f < n) :
    ∃ k, fccWrite { skip_end := n } [f] = .err k
      ∧ (k = ErrorKind.ByteNotFound ∨ k = ErrorKind.Io) := by
  obtain ⟨k, hwc, hk⟩ := write_contents_skip_end_fail hn hc
  refine ⟨k, ?_, hk⟩
  rw [fccWrite]
  simp [writeLoop, hwc]

theorem fccWrite_skip_start_panics (f : List Nat) (n : Nat) (hn : 1 ≤ n)
    (hc : 1 ≤ countB 10 f) :
    fccWrite { skip_start := n } [f] = .panicked := by
  obtain ⟨p, s', hs⟩ := @seek_fresh_ok f 10 hc
  have hpan : ByteSeeker.seek_nth f (ByteSeeker.new f) 10 0 = .panicked :=
    seek_nth_zero_of_ok hs
  have hview : view ({ skip_start := n } : ConcatOptions) = true :=
    view_skip_start (by simpa using hn)
  have hwc : write_contents { skip_start := n } f = .panicked := by
    rw [write_contents]
    simp [hview, hpan, Nat.lt_of_lt_of_le Nat.zero_lt_one hn]
  rw [fccWrite]
  simp [writeLoop, hwc]

/-! ### Claim theorems -/

/-- Claim C1 (amended): with default configuration the output is the
byte-for-byte concatenation of the files in order, followed by a single
`\n` appended exactly when the last input file does not end with `\n` (the
final newline check of `Concat::write` runs regardless of the `newline`
option). -/
theorem concat_default_trailing_newline (files : List (List Nat)) (lastFile : List Nat)
    (hlast : files.getLast? = some lastFile) :
    fccWrite {} files = .ok (files.flatten
      ++ (if ends_with_newline lastFile then [] else [10])) := by
  have h := @fccWrite_not_view {} rfl rfl files lastFile hlast
  simpa [nlBytes] using h

/-- Claim C1 counterexample: a single file `"A"` (no trailing newline) is not
reproduced byte-for-byte — a terminator is appended at the end of the run. -/
theorem concat_default_counterexample :
    fccWrite {} [[65]] = .ok [65, 10] ∧ fccWrite {} [[65]] ≠ .ok [65] :=
  ⟨by decide, by decide⟩

theorem concat_default_trailing_newline_witness :
    ([[65, 10]] : List (List Nat)).getLast? = some [65, 10] ∧
    fccWrite {} [[65, 10]] = .ok ([[65, 10]].flatten
      ++ (if ends_with_newline [65, 10] then [] else [10])) :=
  ⟨by decide, concat_default_trailing_newline [[65, 10]] [65, 10] (by decide)⟩

/-- Claim C2: with `newline(true)` and no skips, `write_contents` never
copies the file body — the branch copying content is nested inside the
skip branch — so the run emits only terminators.  For the one-byte file
`"A"` the code writes `"\n\n"` instead of `"A\n"`: the per-file terminator
plus the end-of-run terminator, with the content dropped. -/
theorem newline_option_drops_content :
    fccWrite { newline := true } [[65]] = .ok [10, 10] ∧
    fccWrite { newline := true } [[65]] ≠ .ok [65, 10] :=
  ⟨by decide, by decide⟩

/-- Claim C3: both trim boundaries are computed from `opts.skip_end`
(`skip_start` is read only in the branch condition), and the copy starts at
`start - 1`, one byte before the located newline.  With head-skip 2 and
tail-skip 1 on `"a\nb\nc\n"`, the code emits the whole file (start is the
first newline at offset 1, copy begins at offset 0) instead of the content
after the second newline (offset 4). -/
theorem skip_boundary_from_tail_count :
    fccWrite { skip_start := 2, skip_end := 1 } [[97, 10, 98, 10, 99, 10]]
      = .ok [97, 10, 98, 10, 99, 10] ∧
    fccWrite { skip_start := 2, skip_end := 1 } [[97, 10, 98, 10, 99, 10]]
      ≠ .ok (List.drop 4 [97, 10, 98, 10, 99, 10]) :=
  ⟨by decide, by decide⟩

/-- Claim C4: for a stream with exactly `k` occurrences of a delimiter byte,
`seek_nth(byte, j)` on a fresh seeker succeeds for `1 ≤ j ≤ k` with strictly
increasing offsets, `seek_nth(byte, k+1)` always fails, and when `k ≥ 1`,
`seek_nth_back(byte, 1)` returns the same offset as `seek_nth(byte, k)`. -/
theorem seeker_nth_invariant (data : List Nat) (byte k : Nat)
    (hk : countB byte data = k) :
    (∀ j, j < k → ((freshSeekNth data byte (j+1)).posOpt).isSome = true)
    ∧ (∀ j, j < k → ∀ i, i < j →
        optLtB ((freshSeekNth data byte (i+1)).posOpt)
          ((freshSeekNth data byte (j+1)).posOpt) = true)
    ∧ (freshSeekNth data byte (k+1)).isErrB = true
    ∧ (1 ≤ k → (freshSeekNthBack data byte 1).posOpt = (freshSeekNth data byte k).posOpt
        ∧ ((freshSeekNth data byte k).posOpt).isSome = true) := by
  have hcount0 : countB byte (data.drop 0) = k := by rw [List.drop_zero]; exact hk
  have hsome : ∀ j, 1 ≤ j → j ≤ k → (nthOcc data byte j).isSome = true := by
    intro j h1 h2
    exact nthOccFrom_isSome j 0 h1 (by omega)
  have hval : ∀ j, 1 ≤ j → j ≤ k →
      (freshSeekNth data byte j).posOpt = nthOcc data byte j := by
    intro j h1 h2
    have hm := seek_nth_fresh data byte j h1
    have hs := hsome j h1 h2
    cases hv : nthOcc data byte j with
    | none => rw [hv] at hs; simp at hs
    | some p =>
      rw [hv] at hm
      exact hm
  refine ⟨?_, ?_, ?_, ?_⟩
  · intro j hj
    rw [hval (j+1) (by omega) (by omega)]
    exact hsome (j+1) (by omega) (by omega)
  · intro j hj i hij
    rw [hval (i+1) (by omega) (by omega), hval (j+1) (by omega) (by omega)]
    have h1 := hsome (i+1) (by omega) (by omega)
    have h2 := hsome (j+1) (by omega) (by omega)
    cases hv1 : nthOcc data byte (i+1) with
    | none => rw [hv1] at h1; simp at h1
    | some p =>
      cases hv2 : nthOcc data byte (j+1) with
      | none => rw [hv2] at h2; simp at h2
      | some q =>
        rw [nthOcc] at hv1 hv2
        have hidx : (i+1) + (j - i - 1) + 1 = j + 1 := by omega
        have hv2' : nthOccFrom data byte ((i+1) + (j - i - 1) + 1) 0 = some q := by
          rw [hidx]
          exact hv2
        have hlt := nthOccFrom_strict (j - i - 1) (i+1) 0 p q (by omega) hv1 hv2'
        simp [optLtB, hlt]
  · have hnone : nthOcc data byte (k+1) = none := by
      rw [nthOcc]
      exact nthOccFrom_none_of_gt (by omega)
    have hm := seek_nth_fresh data byte (k+1) (by omega)
    rw [hnone] at hm
    obtain ⟨kk, s', heq, _⟩ := isSeekFail_inv hm
    rw [heq]
    rfl
  · intro hk1
    have hlast : lastOcc data byte = nthOcc data byte k := lastOcc_eq_nthOcc hk hk1
    have hb : (freshSeekNthBack data byte 1).posOpt = lastOcc data byte := by
      have hr : freshSeekNthBack data byte 1
          = ByteSeeker.seek_back data (ByteSeeker.new data) byte := rfl
      rw [hr, seek_back_fresh]
    constructor
    · rw [hb, hlast, hval k hk1 (Nat.le_refl k)]
    · rw [hval k hk1 (Nat.le_refl k)]
      exact hsome k hk1 (Nat.le_refl k)

theorem seeker_nth_invariant_witness :
    countB 10 [0, 10, 10, 0, 10] = 3 ∧
    ((∀ j, j < 3 → ((freshSeekNth [0, 10, 10, 0, 10] 10 (j+1)).posOpt).isSome = true)
    ∧ (∀ j, j < 3 → ∀ i, i < j →
        optLtB ((freshSeekNth [0, 10, 10, 0, 10] 10 (i+1)).posOpt)
          ((freshSeekNth [0, 10, 10, 0, 10] 10 (j+1)).posOpt) = true)
    ∧ (freshSeekNth [0, 10, 10, 0, 10] 10 (3+1)).isErrB = true
    ∧ (1 ≤ 3 → (freshSeekNthBack [0, 10, 10, 0, 10] 10 1).posOpt
          = (freshSeekNth [0, 10, 10, 0, 10] 10 3).posOpt
        ∧ ((freshSeekNth [0, 10, 10, 0, 10] 10 3).posOpt).isSome = true)) :=
  ⟨by decide, seeker_nth_invariant [0, 10, 10, 0, 10] 10 3 (by decide)⟩

/-- Claim C5 (amended): configured padding is written after every file,
including the last one (the loop in `Concat::write` appends it
unconditionally after each file's contents); no padding is written before
the first file. -/
theorem padding_after_every_file (p : List Nat) (files : List (List Nat)) (lastFile : List Nat)
    (hlast : files.getLast? = some lastFile) :
    fccWrite { padding := some p } files =
      .ok ((files.map (fun f => f ++ p)).flatten
        ++ (if ends_with_newline lastFile then [] else [10])) := by
  have h := @fccWrite_not_view { padding := some p } rfl rfl files lastFile hlast
  simpa [nlBytes] using h

/-- Claim C5 counterexample: with two newline-terminated files and pad bytes
`"P"`, the pad also appears after the second (last) file. -/
theorem padding_between_counterexample :
    fccWrite { padding := some [80] } [[65, 10], [66, 10]] = .ok [65, 10, 80, 66, 10, 80] ∧
    fccWrite { padding := some [80] } [[65, 10], [66, 10]] ≠ .ok [65, 10, 80, 66, 10] :=
  ⟨by decide, by decide⟩

theorem padding_after_every_file_witness :
    ([[65, 10]] : List (List Nat)).getLast? = some [65, 10] ∧
    fccWrite { padding := some [80] } [[65, 10]] =
      .ok (([[65, 10]].map (fun f => f ++ [80])).flatten
        ++ (if ends_with_newline [65, 10] then [] else [10])) :=
  ⟨by decide, padding_after_every_file [80] [[65, 10]] [65, 10] (by decide)⟩

/-- Claim C6: invoked on an empty path list with default options,
`Concat::write` does not return the structured `NothingPassed` error: it
evaluates `paths[paths.len() - 1]`, whose index arithmetic underflows, i.e.
the call panics (only `get_header`, reached with the `header` option, returns
`NothingPassed`). -/
theorem empty_input_panics :
    fccWrite {} ([] : List (List Nat)) = .panicked ∧
    get_header ([] : List (List Nat)) = .error .NothingPassed :=
  ⟨by decide, rfl⟩

/-- Claim C7 (amended): when the requested line-skip count exceeds the number
of newlines in a file, the top-level write surfaces the seeker's own error
raw — `ByteNotFound` (or `Io` when the walk had already consumed the final
byte) — and never the `InvalidSkip` kind, which nothing in the crate
constructs. -/
theorem raw_seeker_error_surfaced (f : List Nat) (n : Nat) (hn : 1 ≤ n)
    (hc : countB 10 f < n) :
    ∃ k, fccWrite { skip_end := n } [f] = .err k
      ∧ (k = ErrorKind.ByteNotFound ∨ k = ErrorKind.Io) ∧ k ≠ ErrorKind.InvalidSkip := by
  obtain ⟨k, heq, hk⟩ := fccWrite_skip_end_fail f n hn hc
  refine ⟨k, heq, hk, ?_⟩
  rcases hk with h | h
  · subst h
    intro hcon
    cases hcon
  · subst h
    intro hcon
    cases hcon

/-- Claim C7 counterexample: skipping one line of the newline-free file `"a"`
returns the raw internal `ByteNotFound`, not a translated error kind. -/
theorem raw_seeker_error_counterexample :
    fccWrite { skip_end := 1 } [[97]] = .err .ByteNotFound ∧
    fccWrite { skip_end := 1 } [[97]] ≠ .err .InvalidSkip :=
  ⟨by decide, by decide⟩

theorem raw_seeker_error_surfaced_witness :
    (1 ≤ 1 ∧ countB 10 [97] < 1) ∧
    (∃ k, fccWrite { skip_end := 1 } [[97]] = .err k
      ∧ (k = ErrorKind.ByteNotFound ∨ k = ErrorKind.Io) ∧ k ≠ ErrorKind.InvalidSkip) :=
  ⟨⟨by decide, by decide⟩, raw_seeker_error_surfaced [97] 1 (by decide) (by decide)⟩

/-- Claim C8 (amended): the two directions share the `done` flag: once a
forward (or backward) walk fails with `ByteNotFound`, every further call in
either direction on the same seeker fails as well. -/
theorem shared_exhaustion_flag (data : List Nat) (s : ByteSeeker) (byte b2 : Nat)
    (s' : ByteSeeker) :
    (ByteSeeker.seek data s byte = .err .ByteNotFound s' →
      (ByteSeeker.seek data s' b2).isErrB = true
      ∧ (ByteSeeker.seek_back data s' b2).isErrB = true)
    ∧ (ByteSeeker.seek_back data s byte = .err .ByteNotFound s' →
      (ByteSeeker.seek data s' b2).isErrB = true
      ∧ (ByteSeeker.seek_back data s' b2).isErrB = true) := by
  constructor
  · intro h
    have hst := seek_err_bnf_state h
    exact ⟨by rw [seek_done hst]; rfl, by rw [seek_back_done hst]; rfl⟩
  · intro h
    have hst := seek_back_err_bnf_state h
    exact ⟨by rw [seek_done hst]; rfl, by rw [seek_back_done hst]; rfl⟩

/-- Claim C8 counterexample: on the stream `"\n\0"` (one delimiter), after the
forward walk is exhausted, a backward seek on the same seeker fails even
though the delimiter exists. -/
theorem shared_exhaustion_counterexample :
    countB 10 [10, 0] = 1 ∧
    runOps [10, 0] (ByteSeeker.new [10, 0]) [Op.fwd 10, Op.fwd 10, Op.bwd 10]
      = [OpResult.ok 0, OpResult.err .ByteNotFound, OpResult.err .ByteNotFound] :=
  ⟨by decide, by decide⟩

theorem shared_exhaustion_flag_witness :
    ByteSeeker.seek [10, 0] ⟨1, 2, 1, 1, false, false⟩ 10
      = .err .ByteNotFound ⟨2, 1, 1, 1, true, false⟩ ∧
    ((ByteSeeker.seek [10, 0] ⟨2, 1, 1, 1, true, false⟩ 10).isErrB = true
     ∧ (ByteSeeker.seek_back [10, 0] ⟨2, 1, 1, 1, true, false⟩ 10).isErrB = true) :=
  ⟨by decide,
   (shared_exhaustion_flag [10, 0] ⟨1, 2, 1, 1, false, false⟩ 10 10
     ⟨2, 1, 1, 1, true, false⟩).1 (by decide)⟩

/-- Claim C9: `reset()` restores a seeker to exactly the freshly-constructed
state (cursors, buffer and flags), so repeating an identical sequence of
`seek`/`seek_back` calls after a reset reproduces identical offsets and
identical success/failure outcomes. -/
theorem reset_replay_identical (data : List Nat) (s : ByteSeeker) (ops : List Op) :
    runOps data (ByteSeeker.reset data s) ops = runOps data (ByteSeeker.new data) ops
    ∧ runOps data (ByteSeeker.reset data (execOps data (ByteSeeker.new data) ops)) ops
      = runOps data (ByteSeeker.new data) ops := by
  have h : ∀ t : ByteSeeker, ByteSeeker.reset data t = ByteSeeker.new data := fun _ => rfl
  exact ⟨by rw [h], by rw [h]⟩

/-- Claim C10: `seek_nth(byte, 0)` / `seek_nth_back(byte, 0)` decrement the
counter before testing it, so a zero count underflows (a checked-arithmetic
panic) right after the first underlying seek succeeds; this is reachable
from the public `write` whenever the head-skip count is positive and the
tail-skip count is zero, because `write_contents` passes `skip_end` to
`seek_nth`. -/
theorem seek_nth_zero_panics :
    (∀ (data : List Nat) (s : ByteSeeker) (byte p : Nat) (s' : ByteSeeker),
      ByteSeeker.seek data s byte = .ok p s' → ByteSeeker.seek_nth data s byte 0 = .panicked)
    ∧ (∀ (data : List Nat) (s : ByteSeeker) (byte p : Nat) (s' : ByteSeeker),
      ByteSeeker.seek_back data s byte = .ok p s' →
        ByteSeeker.seek_nth_back data s byte 0 = .panicked)
    ∧ (∀ (f : List Nat) (n : Nat), 1 ≤ n → 1 ≤ countB 10 f →
      fccWrite { skip_start := n } [f] = .panicked) := by
  refine ⟨?_, ?_, ?_⟩
  · intro data s byte p s' h
    exact seek_nth_zero_of_ok h
  · intro data s byte p s' h
    exact seek_nth_back_zero_of_ok h
  · intro f n hn hc
    exact fccWrite_skip_start_panics f n hn hc

theorem seek_nth_zero_panics_witness :
    (ByteSeeker.seek [10] (ByteSeeker.new [10]) 10 = .ok 0 ⟨1, 4096, 0, 0, true, false⟩
      ∧ ByteSeeker.seek_nth [10] (ByteSeeker.new [10]) 10 0 = .panicked)
    ∧ (1 ≤ 1 ∧ 1 ≤ countB 10 [10] ∧ fccWrite { skip_start := 1 } [[10]] = .panicked) :=
  ⟨⟨by decide,
    seek_nth_zero_panics.1 [10] (ByteSeeker.new [10]) 10 0 ⟨1, 4096, 0, 0, true, false⟩
      (by decide)⟩,
   ⟨by decide, by decide, seek_nth_zero_panics.2.2 [10] 1 (by decide) (by decide)⟩⟩
